import Mathlib

/-!
Verification of the FX-Rates-Dashboard core logic: the watchlist
persistence/normalization engine (`loadWatchlist`, `saveWatchlist`, the
add/remove handlers) and the time-series aggregator (`chartData`, `stats`,
the UTC date window).  JavaScript values parsed from storage are modelled
by the inductive `Json`; JavaScript numbers are modelled by `JsNum`
(exact rationals plus the non-finite values `Infinity`, `-Infinity`, `NaN`
that the dynamic type `number` also contains); strings are Lean `String`s.
-/

namespace FX

/-- Model of `s.toUpperCase()`: per-character (ASCII) uppercasing. -/
def strUpper (s : String) : String := ⟨s.data.map Char.toUpper⟩

/-- `WatchPair` from `storage.ts`: `{ base: string; target: string }`. -/
structure WatchPair where
  base : String
  target : String
deriving DecidableEq, Repr

/-- The dedup key used throughout the source: `` `${base}-${target}` ``. -/
def WatchPair.key (p : WatchPair) : String := p.base ++ "-" ++ p.target

/-- A JavaScript number: a finite value (idealized as an exact rational)
or one of the non-finite values of the `number` type. -/
inductive JsNum where
  | fin (q : ℚ)
  | inf
  | ninf
  | nan
deriving DecidableEq, Repr

/-- `typeof v === "number"`-land finiteness: `Number.isFinite`. -/
def JsNum.isFinite : JsNum → Bool
  | .fin _ => true
  | _ => false

/-- A parsed JSON-like JavaScript value (the possible results of
`JSON.parse`). -/
inductive Json where
  | null
  | bool (b : Bool)
  | num (n : JsNum)
  | str (s : String)
  | arr (elems : List Json)
  | obj (fields : List (String × Json))

/-- Whether a parsed value is an array (`Array.isArray`). -/
def Json.isArr : Json → Bool
  | .arr _ => true
  | _ => false

/-- Property lookup `x[k]` on a parsed value: only objects yield fields;
a duplicated key in the source text ends up with its last value, which the
association-list model reflects with `getLast?`. -/
def Json.getField : Json → String → Option Json
  | .obj fields, k => ((fields.filter (fun f => f.1 == k)).getLast?).map (·.2)
  | _, _ => none

/-- JavaScript truthiness of a parsed value. -/
def Json.truthy : Json → Bool
  | .null => false
  | .bool b => b
  | .num (.fin q) => q != 0
  | .num .nan => false
  | .num .inf => true
  | .num .ninf => true
  | .str s => s != ""
  | .arr _ => true
  | .obj _ => true

/-- `isPair` from `storage.ts`:
`x && typeof x.base === "string" && typeof x.target === "string"`. -/
def isPair (x : Json) : Bool :=
  x.truthy &&
    (match x.getField "base" with | some (.str _) => true | _ => false) &&
    (match x.getField "target" with | some (.str _) => true | _ => false)

/-- The string stored in field `k` (defaulting to `""`; under `isPair`
the default is never used). -/
def strFieldD (x : Json) (k : String) : String :=
  match x.getField k with
  | some (.str s) => s
  | _ => ""

/-- The `.map` step of `loadWatchlist`:
`{ base: p.base.toUpperCase(), target: p.target.toUpperCase() }`. -/
def normPair (x : Json) : WatchPair :=
  ⟨strUpper (strFieldD x "base"), strUpper (strFieldD x "target")⟩

/-- The `continue` guard of the dedup loop:
`!p.base || !p.target || p.base === p.target`. -/
def skipPair (p : WatchPair) : Bool :=
  p.base == "" || p.target == "" || p.base == p.target

/-- Insertion-ordered map (the semantics of a JavaScript `Map`): `set`
overwrites the value in place when the key is present and appends
otherwise. -/
def mapSet (m : List (String × WatchPair)) (k : String) (v : WatchPair) :
    List (String × WatchPair) :=
  if m.any (fun e => e.1 == k) then
    m.map (fun e => if e.1 == k then (k, v) else e)
  else m ++ [(k, v)]

/-- One iteration of the `for (const p of pairs)` dedup loop. -/
def dedupStep (m : List (String × WatchPair)) (p : WatchPair) :
    List (String × WatchPair) :=
  if skipPair p then m else mapSet m p.key p

/-- The filter/normalize/dedup pipeline of `loadWatchlist` applied to a
parsed array, up to `Array.from(uniq.values())`. -/
def processPairs (items : List Json) : List WatchPair :=
  (((items.filter isPair).map normPair).foldl dedupStep []).map Prod.snd

/-- The fallback `[{ base: "USD", target: "MXN" }]`. -/
def defaultWatchlist : List WatchPair := [⟨"USD", "MXN"⟩]

/-- The observable state of the stored blob as `loadWatchlist` reads it:
missing/empty raw text, text `JSON.parse` throws on, a storage layer that
itself throws, or a successfully parsed value. -/
inductive Blob where
  | absent
  | unparsable
  | failure
  | parsed (j : Json)

/-- `loadWatchlist` from `storage.ts`. -/
def loadWatchlist : Blob → List WatchPair
  | .absent => defaultWatchlist
  | .unparsable => defaultWatchlist
  | .failure => defaultWatchlist
  | .parsed j =>
    match j with
    | .arr items =>
      let list := processPairs items
      if list.isEmpty then defaultWatchlist else list
    | _ => defaultWatchlist

/-- The parsed value of `JSON.stringify` of one pair. -/
def pairJson (p : WatchPair) : Json :=
  .obj [("base", .str p.base), ("target", .str p.target)]

/-- `saveWatchlist` from `storage.ts`, viewed through its effect on the
stored blob when the write succeeds: the blob a later load parses back. -/
def saveWatchlist (pairs : List WatchPair) : Blob :=
  .parsed (.arr (pairs.map pairJson))

/-- The three validation failures the `onAdd` handler signals. -/
inductive AddError where
  | emptyField
  | samePair
  | duplicatePair
deriving DecidableEq, Repr

/-- `onAdd` from `Watchlist.tsx`, as the result-valued operation the spec
describes: uppercase both codes, reject empty/same/duplicate, otherwise
prepend. -/
def onAdd (current : List WatchPair) (base target : String) :
    Except AddError (List WatchPair) :=
  let b := strUpper base
  let t := strUpper target
  if b == "" || t == "" then .error .emptyField
  else if b == t then .error .samePair
  else if current.any (fun p => p.base ++ "-" ++ p.target == b ++ "-" ++ t) then
    .error .duplicatePair
  else .ok (⟨b, t⟩ :: current)

/-- `onRemove` from `Watchlist.tsx`:
`prev.filter((x) => !(x.base === p.base && x.target === p.target))`. -/
def onRemove (current : List WatchPair) (p : WatchPair) : List WatchPair :=
  current.filter (fun x => !(x.base == p.base && x.target == p.target))

/-! ### Spec-side formulations (for comparison with the source pipeline) -/

/-- Spec wording of structural validity: "an object with a `base` field
and a `target` field, both strings"; all other entries yield nothing. -/
def specEntryPair (x : Json) : Option WatchPair :=
  match x.getField "base", x.getField "target" with
  | some (.str b), some (.str t) => some ⟨b, t⟩
  | _, _ => none

/-- Spec wording: "Normalize every surviving entry: uppercase both
codes." -/
def specNormalize (p : WatchPair) : WatchPair :=
  ⟨strUpper p.base, strUpper p.target⟩

/-- Spec wording: "Drop entries where `base` is empty, `target` is empty,
or `base == target`." -/
def specValidB (p : WatchPair)  : Bool :=
  p.base != "" && p.target != "" && p.base != p.target

/-- First occurrence of each key, in first-seen order (the spec's
"first-seen position per key"). -/
def firstKeys : List String → List String
  | [] => []
  | k :: ks => k :: (firstKeys ks).filter (fun k2 => k2 != k)

/-- The last entry of `l` carrying key `k` (the spec's "the last
occurrence in the input sequence wins"). -/
def lastWithKey (l : List WatchPair) (k : String) : Option WatchPair :=
  (l.filter (fun p => p.key == k)).getLast?

/-- The spec's description of the whole load pipeline on a parsed array:
keep structurally valid entries, uppercase, drop invalid pairs, then list
one entry per key, ordered by first-seen key position, valued by the last
occurrence of that key. -/
def specProcess (items : List Json) : List WatchPair :=
  let valid := ((items.filterMap specEntryPair).map specNormalize).filter specValidB
  ((firstKeys (valid.map WatchPair.key)).filterMap
    (fun k => (lastWithKey valid k).map (fun p => (k, p)))).map Prod.snd

/-- The alternative dedup semantics the spec's open question distinguishes:
the FIRST occurrence of a key keeps its value and later duplicates are
ignored. -/
def dedupFirstStep (m : List (String × WatchPair)) (p : WatchPair) :
    List (String × WatchPair) :=
  if skipPair p then m
  else if m.any (fun e => e.1 == p.key) then m
  else m ++ [(p.key, p)]

/-- `processPairs` with first-occurrence-wins dedup instead of the
`Map.set` overwrite semantics. -/
def processPairsFirst (items : List Json) : List WatchPair :=
  (((items.filter isPair).map normPair).foldl dedupFirstStep []).map Prod.snd

/-- A single pair satisfying the watchlist invariants: both codes
non-empty and all-uppercase, and the codes distinct. -/
def goodPair (p : WatchPair) : Prop :=
  p.base ≠ "" ∧ p.target ≠ "" ∧ strUpper p.base = p.base ∧
    strUpper p.target = p.target ∧ p.base ≠ p.target

/-- The watchlist invariant of the spec's data model: every entry is a
valid normalized pair and no two entries share a key. -/
def goodWatchlist (l : List WatchPair) : Prop :=
  (∀ p ∈ l, goodPair p) ∧ (l.map WatchPair.key).Nodup

instance (p : WatchPair) : Decidable (goodPair p) := by
  unfold goodPair; infer_instance

instance (l : List WatchPair) : Decidable (goodWatchlist l) := by
  unfold goodWatchlist; infer_instance

/-- Invariant of the dedup map during the fold: keys match their values
and are distinct, and every stored value is a valid normalized pair. -/
def mapWF (m : List (String × WatchPair)) : Prop :=
  (∀ e ∈ m, e.1 = e.2.key ∧ goodPair e.2) ∧ (m.map Prod.fst).Nodup

/-! ### Series aggregator (`History.tsx`) -/

/-- Kernel-computable lexicographic strict comparison on character
lists. -/
def charsLtb : List Char → List Char → Bool
  | _, [] => false
  | [], _ :: _ => true
  | c :: cs, d :: ds => decide (c < d) || (!decide (d < c) && charsLtb cs ds)

/-- Computable model of the comparator `a.date.localeCompare(b.date) ≤ 0`
(lexicographic order on the zero-padded ISO date strings). -/
def strLeb (s t : String) : Bool := !(charsLtb t.data s.data)

/-- The `.map` plus `typeof p.rate === "number"` filter of `chartData`:
for each `(date, obj)` entry keep the date exactly when `obj?.[target]`
is a value of number type. -/
def seriesPoints (raw : List (String × Json)) (target : String) :
    List (String × JsNum) :=
  (raw.map (fun e => (e.1, e.2.getField target))).filterMap
    (fun e => match e.2 with
      | some (.num n) => some (e.1, n)
      | _ => none)

/-- `points.slice(-period)` for the positive periods the `Period` type
allows: the last `min period length` elements. -/
def sliceLast (period : Nat) (l : List (String × JsNum)) :
    List (String × JsNum) :=
  l.drop (l.length - period)

/-- `chartData` from `History.tsx`: build the points, sort ascending by
date (a stable sort, as `Array.prototype.sort` guarantees), keep the last
`period` points. -/
def chartData (raw : List (String × Json)) (target : String)
    (period : Nat) : List (String × JsNum) :=
  sliceLast period
    ((seriesPoints raw target).insertionSort
      (fun a b => strLeb a.1 b.1 = true))

/-- `Math.min` on JavaScript numbers. -/
def JsNum.min : JsNum → JsNum → JsNum
  | .nan, _ => .nan
  | _, .nan => .nan
  | .ninf, _ => .ninf
  | _, .ninf => .ninf
  | .inf, b => b
  | a, .inf => a
  | .fin a, .fin b => .fin (Min.min a b)

/-- `Math.max` on JavaScript numbers. -/
def JsNum.max : JsNum → JsNum → JsNum
  | .nan, _ => .nan
  | _, .nan => .nan
  | .inf, _ => .inf
  | _, .inf => .inf
  | .ninf, b => b
  | a, .ninf => a
  | .fin a, .fin b => .fin (Max.max a b)

/-- `+` on JavaScript numbers (finite arithmetic idealized as exact). -/
def JsNum.add : JsNum → JsNum → JsNum
  | .nan, _ => .nan
  | _, .nan => .nan
  | .inf, .ninf => .nan
  | .ninf, .inf => .nan
  | .inf, _ => .inf
  | _, .inf => .inf
  | .ninf, _ => .ninf
  | _, .ninf => .ninf
  | .fin a, .fin b => .fin (a + b)

/-- `sum / chartData.length`: division of a JavaScript number by a
nonnegative count. -/
def JsNum.divNat : JsNum → Nat → JsNum
  | .nan, _ => .nan
  | .inf, _ => .inf
  | .ninf, _ => .ninf
  | .fin q, n =>
    if n = 0 then (if q = 0 then .nan else if 0 < q then .inf else .ninf)
    else .fin (q / n)

/-- The record produced by the `stats` memo. -/
structure SeriesStats where
  min : JsNum
  max : JsNum
  avg : JsNum
  count : Nat
deriving DecidableEq, Repr

/-- The `stats` memo of `History.tsx`: `null` on an empty window,
otherwise a `Math.min`/`Math.max`/sum scan starting from
`POSITIVE_INFINITY`/`NEGATIVE_INFINITY`/`0`, and `avg = sum / count`. -/
def stats (pts : List (String × JsNum)) : Option SeriesStats :=
  if pts.isEmpty then none
  else
    some
      { min := pts.foldl (fun m p => JsNum.min m p.2) .inf
        max := pts.foldl (fun m p => JsNum.max m p.2) .ninf
        avg := JsNum.divNat (pts.foldl (fun s p => JsNum.add s p.2) (.fin 0))
          pts.length
        count := pts.length }

/-! ### UTC date window (`History.tsx`) -/

/-- A UTC calendar date as `Date`'s UTC accessors expose it:
`getUTCFullYear`, `getUTCMonth() + 1`, `getUTCDate`. -/
structure CivilDate where
  y : Int
  m : Nat
  d : Nat
deriving DecidableEq, Repr

/-- Gregorian leap-year rule (as implemented by the `Date` object). -/
def isLeap (y : Int) : Bool :=
  (y % 4 == 0 && y % 100 != 0) || y % 400 == 0

/-- Number of days in a month of the Gregorian calendar. -/
def daysInMonth (y : Int) (m : Nat) : Nat :=
  if m = 2 then (if isLeap y then 29 else 28)
  else if m = 4 ∨ m = 6 ∨ m = 9 ∨ m = 11 then 30
  else 31

/-- A well-formed calendar date. -/
def validDate (t : CivilDate) : Prop :=
  1 ≤ t.m ∧ t.m ≤ 12 ∧ 1 ≤ t.d ∧ t.d ≤ daysInMonth t.y t.m

instance (t : CivilDate) : Decidable (validDate t) := by
  unfold validDate; infer_instance

/-- The previous calendar day. -/
def prevDay (t : CivilDate) : CivilDate :=
  if 1 < t.d then ⟨t.y, t.m, t.d - 1⟩
  else if 1 < t.m then ⟨t.y, t.m - 1, daysInMonth t.y (t.m - 1)⟩
  else ⟨t.y - 1, 12, 31⟩

/-- `daysAgoUTC` from `History.tsx`:
`d.setUTCDate(d.getUTCDate() - days)` normalizes through the calendar,
i.e. steps back `days` calendar days from the current date. -/
def daysAgoUTC (t : CivilDate) (days : Nat) : CivilDate :=
  prevDay^[days] t

/-- `String(n).padStart(2, "0")` for the month/day fields. -/
def pad2 (n : Nat) : String :=
  if n < 10 then "0" ++ toString n else toString n

/-- `isoDateUTC` from `History.tsx`:
`` `${y}-${m}-${day}` `` with zero-padded month and day. -/
def isoDateUTC (t : CivilDate) : String :=
  toString t.y ++ "-" ++ pad2 t.m ++ "-" ++ pad2 t.d

/-- The `startISO`/`endISO` memo: the window the UI requests for a
period, `[today - (period + 2), today]`, both as ISO strings. -/
def windowFor (today : CivilDate) (period : Nat) : String × String :=
  (isoDateUTC (daysAgoUTC today (period + 2)), isoDateUTC today)

/-- Total days in months `1..m` of year `y`. -/
def monthSum (y : Int) : Nat → Nat
  | 0 => 0
  | m + 1 => monthSum y m + daysInMonth y (m + 1)

/-- Ordinal day within the year (Jan 1 ↦ 1). -/
def dayOfYear (t : CivilDate) : Nat := monthSum t.y (t.m - 1) + t.d

/-- Calendar order on date triples (year, then month, then day). -/
def dateLt (t1 t2 : CivilDate) : Prop :=
  t1.y < t2.y ∨ (t1.y = t2.y ∧
    (t1.m < t2.m ∨ (t1.m = t2.m ∧ t1.d < t2.d)))

/-- The dedup-loop body on an entry that passed the validity guard:
`uniq.set(key, p)`. -/
def insKey (m : List (String × WatchPair)) (p : WatchPair) :
    List (String × WatchPair) :=
  mapSet m p.key p

/-- Spec-side association list: keys in first-seen order, each valued by
its last occurrence. -/
def specAssoc (l : List WatchPair) : List (String × WatchPair) :=
  (firstKeys (l.map WatchPair.key)).filterMap
    (fun k => (lastWithKey l k).map (fun p => (k, p)))

/-! ## Theorems -/

/-! ### Uppercasing -/

theorem char_ofNatAux_toNat (n : Nat) (h : n.isValidChar) :
    (Char.ofNatAux n h).toNat = n := rfl

theorem char_toUpper_toUpper (c : Char) : c.toUpper.toUpper = c.toUpper := by
  unfold Char.toUpper
  by_cases h : c.toNat ≥ 97 ∧ c.toNat ≤ 122
  · rw [if_pos h]
    have hv : (c.toNat - 32).isValidChar := by
      unfold Nat.isValidChar
      left; omega
    rw [Char.ofNat, dif_pos hv, char_ofNatAux_toNat]
    have hn : ¬(c.toNat - 32 ≥ 97 ∧ c.toNat - 32 ≤ 122) := by omega
    rw [if_neg hn]
  · rw [if_neg h, if_neg h]

theorem strUpper_idem (s : String) : strUpper (strUpper s) = strUpper s := by
  show String.mk ((s.data.map Char.toUpper).map Char.toUpper) =
    String.mk (s.data.map Char.toUpper)
  rw [List.map_map]
  exact congrArg String.mk
    (List.map_congr_left (fun c _ => char_toUpper_toUpper c))

/-- A `normPair` output is fixed by further normalization. -/
theorem normPair_upper (x : Json) :
    strUpper (normPair x).base = (normPair x).base ∧
      strUpper (normPair x).target = (normPair x).target :=
  ⟨strUpper_idem _, strUpper_idem _⟩

/-! ### Validity guards -/

theorem specValidB_eq_not_skip (p : WatchPair) :
    specValidB p = !skipPair p := by
  simp only [specValidB, skipPair, Bool.not_or, bne]

theorem skipPair_eq_false_iff (p : WatchPair) :
    skipPair p = false ↔ p.base ≠ "" ∧ p.target ≠ "" ∧ p.base ≠ p.target := by
  unfold skipPair
  simp [and_assoc]

/-! ### Structural validity of entries -/

theorem match_str_eq (o : Option Json) :
    (match o with | some (.str _) => true | _ => false) = true ↔
      ∃ s, o = some (.str s) := by
  rcases o with _ | j
  · simp
  · cases j <;> simp

theorem getField_ne_none_truthy (x : Json) (k : String) (j : Json)
    (h : x.getField k = some j) : x.truthy = true := by
  cases x <;> first | rfl | exact Option.noConfusion h

theorem isPair_iff (x : Json) :
    isPair x = true ↔
      (∃ b, x.getField "base" = some (.str b)) ∧
        (∃ t, x.getField "target" = some (.str t)) := by
  unfold isPair
  constructor
  · intro h
    simp only [Bool.and_eq_true] at h
    exact ⟨(match_str_eq _).mp h.1.2, (match_str_eq _).mp h.2⟩
  · rintro ⟨⟨b, hb⟩, ⟨t, ht⟩⟩
    simp only [Bool.and_eq_true]
    exact ⟨⟨getField_ne_none_truthy x _ _ hb, (match_str_eq _).mpr ⟨b, hb⟩⟩,
      (match_str_eq _).mpr ⟨t, ht⟩⟩

theorem specEntryPair_eq_none (x : Json) (h : ¬ isPair x = true) :
    specEntryPair x = none := by
  unfold specEntryPair
  rcases hb : x.getField "base" with _ | jb
  · rfl
  · rcases ht : x.getField "target" with _ | jt
    · cases jb <;> rfl
    · cases jb <;> cases jt <;>
        first
          | rfl
          | exact absurd ((isPair_iff x).mpr ⟨⟨_, hb⟩, ⟨_, ht⟩⟩) h

/-- The normalize/filter front of the source pipeline coincides with the
spec-side front. -/
theorem filter_map_front (items : List Json) :
    (items.filter isPair).map normPair =
      (items.filterMap specEntryPair).map specNormalize := by
  induction items with
  | nil => rfl
  | cons x xs ih =>
    by_cases h : isPair x = true
    · obtain ⟨⟨b, hb⟩, ⟨t, ht⟩⟩ := (isPair_iff x).mp h
      have he : specEntryPair x = some ⟨b, t⟩ := by
        unfold specEntryPair; rw [hb, ht]
      rw [List.filter_cons, if_pos h, List.filterMap_cons, he]
      simp only [List.map_cons]
      refine congrArg₂ _ ?_ ih
      unfold normPair specNormalize strFieldD
      rw [hb, ht]
    · rw [List.filter_cons, if_neg (by simpa using h), List.filterMap_cons,
        specEntryPair_eq_none x h]
      exact ih

/-! ### The dedup fold versus the spec's description -/

theorem foldl_dedupStep_eq (l : List WatchPair) (m : List (String × WatchPair)) :
    l.foldl dedupStep m = (l.filter (fun p => !skipPair p)).foldl insKey m := by
  induction l generalizing m with
  | nil => rfl
  | cons p ps ih =>
    by_cases h : skipPair p = true
    · rw [List.foldl_cons, List.filter_cons, if_neg (by simp [h]),
        dedupStep, if_pos h]
      exact ih m
    · rw [List.foldl_cons, List.filter_cons,
        if_pos (by simp [Bool.eq_false_iff.mpr h]), List.foldl_cons,
        dedupStep, if_neg h]
      exact ih (insKey m p)

theorem mem_firstKeys (a : String) (ks : List String) :
    a ∈ firstKeys ks ↔ a ∈ ks := by
  induction ks with
  | nil => simp [firstKeys]
  | cons k ks ih =>
    unfold firstKeys
    by_cases h : a = k
    · subst h; simp
    · simp [h, List.mem_filter, ih, bne_iff_ne, h]

theorem firstKeys_concat (ks : List String) (k : String) :
    firstKeys (ks ++ [k]) =
      if k ∈ ks then firstKeys ks else firstKeys ks ++ [k] := by
  induction ks with
  | nil => simp [firstKeys]
  | cons k2 ks ih =>
    show firstKeys (k2 :: (ks ++ [k])) = _
    unfold firstKeys
    rw [ih]
    by_cases hk : k ∈ ks
    · rw [if_pos hk, if_pos (by simp [hk])]
    · rw [if_neg hk]
      by_cases he : k = k2
      · subst he
        rw [if_pos (by simp), List.filter_append]
        simp [firstKeys]
      · rw [if_neg (by simp [he, hk]), List.filter_append]
        simp [firstKeys, bne_iff_ne, he]

theorem lastWithKey_concat (l : List WatchPair) (p : WatchPair) (k : String) :
    lastWithKey (l ++ [p]) k =
      if p.key == k then some p else lastWithKey l k := by
  unfold lastWithKey
  rw [List.filter_append]
  by_cases h : p.key == k
  · rw [if_pos h]
    simp only [List.filter_cons, h, if_pos, List.filter_nil]
    exact List.getLast?_concat _
  · rw [if_neg h]
    simp only [List.filter_cons, List.filter_nil]
    rw [if_neg h, List.append_nil]

theorem lastWithKey_isSome (l : List WatchPair) (k : String)
    (h : k ∈ l.map WatchPair.key) : (lastWithKey l k).isSome := by
  obtain ⟨p, hp, hk⟩ := List.mem_map.mp h
  unfold lastWithKey
  rw [List.getLast?_isSome]
  intro hnil
  have : p ∈ l.filter (fun p => p.key == k) :=
    List.mem_filter.mpr ⟨hp, by simp [hk]⟩
  rw [hnil] at this
  exact List.not_mem_nil p this

theorem specAssoc_keys (l : List WatchPair) :
    (specAssoc l).map Prod.fst = firstKeys (l.map WatchPair.key) := by
  unfold specAssoc
  have h : ∀ ks : List String,
      (∀ k ∈ ks, (lastWithKey l k).isSome) →
      (ks.filterMap (fun k => (lastWithKey l k).map (fun p => (k, p)))).map
        Prod.fst = ks := by
    intro ks
    induction ks with
    | nil => intro _; rfl
    | cons k ks ih =>
      intro hks
      obtain ⟨v, hv⟩ := Option.isSome_iff_exists.mp (hks k (by simp))
      rw [List.filterMap_cons, hv]
      show List.map Prod.fst ((k, v) ::
        ks.filterMap (fun k => (lastWithKey l k).map (fun p => (k, p)))) =
        k :: ks
      rw [List.map_cons]
      exact congrArg _ (ih (fun k2 h2 => hks k2 (List.mem_cons_of_mem _ h2)))
  exact h _ (fun k hk => lastWithKey_isSome l k ((mem_firstKeys _ _).mp hk))

theorem anyKey_iff (m : List (String × WatchPair)) (k : String) :
    (m.any (fun e => e.1 == k)) = true ↔ k ∈ m.map Prod.fst := by
  simp only [List.any_eq_true, List.mem_map, beq_iff_eq]

theorem filterMap_set (ks : List String) (g : String → Option WatchPair)
    (p : WatchPair) (hks : ∀ k ∈ ks, (g k).isSome) :
    ks.filterMap
        (fun k => ((if p.key == k then some p else g k)).map (fun q => (k, q))) =
      (ks.filterMap (fun k => (g k).map (fun q => (k, q)))).map
        (fun e => if e.1 == p.key then (p.key, p) else e) := by
  induction ks with
  | nil => rfl
  | cons k ks ih =>
    obtain ⟨v, hv⟩ := Option.isSome_iff_exists.mp (hks k (by simp))
    rw [List.filterMap_cons, List.filterMap_cons, hv]
    have ihx := ih (fun k2 h2 => hks k2 (List.mem_cons_of_mem _ h2))
    by_cases h : p.key == k
    · have he : p.key = k := by simpa using h
      rw [if_pos h]
      show ((k, p) :: _) = List.map _ ((k, v) :: _)
      rw [List.map_cons]
      have hif : ((k, v).1 == p.key) = true := by simp [he]
      rw [if_pos hif]
      rw [he] at ihx ⊢
      exact congrArg _ ihx
    · rw [if_neg h]
      show ((k, v) :: _) = List.map _ ((k, v) :: _)
      rw [List.map_cons]
      have hif : ((k, v).1 == p.key) = false := by
        simp only [beq_eq_false_iff_ne]
        intro hk
        exact h (by simp [hk])
      rw [hif]
      show _ = (k, v) :: _
      exact congrArg _ ihx

theorem specAssoc_concat_mem (l : List WatchPair) (p : WatchPair)
    (h : p.key ∈ l.map WatchPair.key) :
    specAssoc (l ++ [p]) = insKey (specAssoc l) p := by
  have hany : ((specAssoc l).any fun e => e.1 == p.key) = true :=
    (anyKey_iff _ _).mpr (by rw [specAssoc_keys, mem_firstKeys]; exact h)
  unfold insKey mapSet
  rw [if_pos hany]
  unfold specAssoc
  have hfun : (fun k => (lastWithKey (l ++ [p]) k).map (fun q => (k, q))) =
      (fun k => ((if p.key == k then some p else lastWithKey l k)).map
        (fun q => (k, q))) :=
    funext (fun k => by rw [lastWithKey_concat])
  rw [List.map_append, hfun]
  show (firstKeys (l.map WatchPair.key ++ [p.key])).filterMap _ = _
  rw [firstKeys_concat, if_pos h]
  exact filterMap_set _ _ _
    (fun k hk => lastWithKey_isSome l k ((mem_firstKeys _ _).mp hk))

theorem specAssoc_concat_not_mem (l : List WatchPair) (p : WatchPair)
    (h : ¬ p.key ∈ l.map WatchPair.key) :
    specAssoc (l ++ [p]) = specAssoc l ++ [(p.key, p)] := by
  unfold specAssoc
  have hfun : (fun k => (lastWithKey (l ++ [p]) k).map (fun q => (k, q))) =
      (fun k => ((if p.key == k then some p else lastWithKey l k)).map
        (fun q => (k, q))) :=
    funext (fun k => by rw [lastWithKey_concat])
  rw [List.map_append, hfun]
  show (firstKeys (l.map WatchPair.key ++ [p.key])).filterMap _ = _
  rw [firstKeys_concat, if_neg h, List.filterMap_append]
  refine congrArg₂ _ ?_ ?_
  · refine List.filterMap_congr (fun k hk => ?_)
    have hne : (p.key == k) = false := by
      simp only [beq_eq_false_iff_ne]
      intro he
      exact h (he ▸ (mem_firstKeys _ _).mp hk)
    rw [hne]
    rfl
  · show List.filterMap _ [p.key] = [(p.key, p)]
    rw [List.filterMap_cons]
    rw [if_pos (by simp)]
    rfl

theorem foldl_insKey_eq_specAssoc (l : List WatchPair) :
    l.foldl insKey [] = specAssoc l := by
  induction l using List.reverseRecOn with
  | nil => rfl
  | append_singleton l p ih =>
    rw [List.foldl_append, List.foldl_cons, List.foldl_nil, ih]
    by_cases h : p.key ∈ l.map WatchPair.key
    · exact (specAssoc_concat_mem l p h).symm
    · rw [specAssoc_concat_not_mem l p h]
      unfold insKey mapSet
      have ha : ¬ ((specAssoc l).any (fun e => e.1 == p.key) = true) := by
        rw [anyKey_iff, specAssoc_keys, mem_firstKeys]
        exact h
      rw [if_neg ha]

/-- The whole pipeline of `loadWatchlist` on a parsed array coincides
with the spec's description of it. -/
theorem processPairs_eq_specProcess (items : List Json) :
    processPairs items = specProcess items := by
  have h1 : ((items.filter isPair).map normPair).filter (fun p => !skipPair p)
      = ((items.filterMap specEntryPair).map specNormalize).filter
          specValidB := by
    rw [filter_map_front]
    exact List.filter_congr (fun p _ => (specValidB_eq_not_skip p).symm)
  show (((items.filter isPair).map normPair).foldl dedupStep []).map
    Prod.snd = _
  rw [foldl_dedupStep_eq, foldl_insKey_eq_specAssoc, h1]
  rfl

/-- **C1.** On every parsed storage array, `loadWatchlist` keeps exactly
the entries that are objects with string `base` and `target` fields,
uppercases both codes, drops pairs with an empty code or equal codes, and
deduplicates by the `base-target` key with last-occurrence-wins values in
first-seen-key order (falling back to the default only when nothing
survives). -/
theorem loadWatchlist_spec_on_arrays (items : List Json) :
    loadWatchlist (.parsed (.arr items)) =
      if specProcess items = [] then defaultWatchlist
      else specProcess items := by
  show (if (processPairs items).isEmpty then defaultWatchlist
    else processPairs items) = _
  rw [processPairs_eq_specProcess]
  by_cases h : specProcess items = []
  · rw [if_pos (List.isEmpty_iff.mpr h), if_pos h]
  · rw [if_neg (by simpa [List.isEmpty_iff] using h), if_neg h]

/-- **C2.** `loadWatchlist` is total, never returns an empty list, and
returns exactly the default watchlist whenever the blob is absent,
unparsable, the storage layer throws, the parsed value is not an array,
or no valid pair survives the pipeline. -/
theorem loadWatchlist_total_default :
    (∀ b, loadWatchlist b ≠ []) ∧
    loadWatchlist .absent = defaultWatchlist ∧
    loadWatchlist .unparsable = defaultWatchlist ∧
    loadWatchlist .failure = defaultWatchlist ∧
    (∀ j, j.isArr = false → loadWatchlist (.parsed j) = defaultWatchlist) ∧
    (∀ items, processPairs items = [] →
      loadWatchlist (.parsed (.arr items)) = defaultWatchlist) := by
  have hd : defaultWatchlist ≠ [] := by simp [defaultWatchlist]
  refine ⟨?_, rfl, rfl, rfl, ?_, ?_⟩
  · intro b
    match b with
    | .absent => exact hd
    | .unparsable => exact hd
    | .failure => exact hd
    | .parsed j =>
      match j with
      | .null | .bool _ | .num _ | .str _ | .obj _ => exact hd
      | .arr items =>
        show (if (processPairs items).isEmpty then defaultWatchlist
          else processPairs items) ≠ []
        by_cases h : (processPairs items).isEmpty
        · rw [if_pos h]; exact hd
        · rw [if_neg h]
          simpa [List.isEmpty_iff] using h
  · intro j hj
    match j, hj with
    | .null, _ | .bool _, _ | .num _, _ | .str _, _ | .obj _, _ => rfl
  · intro items h
    show (if (processPairs items).isEmpty then defaultWatchlist
      else processPairs items) = _
    rw [if_pos (List.isEmpty_iff.mpr h)]

/-- Closed instantiation of `loadWatchlist_total_default`: a parsed
non-array blob and a parsed array with no valid entry both load as the
default watchlist. -/
theorem loadWatchlist_total_default_witness :
    loadWatchlist (.parsed (.str "oops")) = defaultWatchlist ∧
    loadWatchlist (.parsed (.arr [.null])) = defaultWatchlist :=
  ⟨loadWatchlist_total_default.2.2.2.2.1 (.str "oops") rfl,
    loadWatchlist_total_default.2.2.2.2.2 [.null] rfl⟩

/-! ### The watchlist invariant -/

theorem insKey_WF (m : List (String × WatchPair)) (p : WatchPair)
    (hm : mapWF m) (hp : goodPair p) : mapWF (insKey m p) := by
  unfold insKey mapSet
  by_cases h : (m.any fun e => e.1 == p.key) = true
  · rw [if_pos h]
    constructor
    · intro e he
      obtain ⟨e0, he0, hfe⟩ := List.mem_map.mp he
      by_cases hk : (e0.1 == p.key) = true
      · rw [if_pos hk] at hfe
        exact hfe ▸ ⟨rfl, hp⟩
      · rw [if_neg hk] at hfe
        exact hfe ▸ hm.1 e0 he0
    · have hfst : (m.map (fun e =>
          if e.1 == p.key then (p.key, p) else e)).map Prod.fst =
            m.map Prod.fst := by
        rw [List.map_map]
        refine List.map_congr_left (fun e _ => ?_)
        by_cases hk : (e.1 == p.key) = true
        · simp only [Function.comp, if_pos hk]
          exact (beq_iff_eq.mp hk).symm
        · simp only [Function.comp]
          rw [if_neg hk]
      rw [hfst]
      exact hm.2
  · rw [if_neg h]
    constructor
    · intro e he
      rcases List.mem_append.mp he with h1 | h1
      · exact hm.1 e h1
      · rw [List.mem_singleton.mp h1]
        exact ⟨rfl, hp⟩
    · rw [List.map_append]
      rw [List.nodup_append]
      refine ⟨hm.2, List.nodup_singleton _, ?_⟩
      intro a ha hb
      rw [List.map_singleton, List.mem_singleton] at hb
      subst hb
      exact h ((anyKey_iff _ _).mpr ha)

theorem foldl_dedupStep_WF (l : List WatchPair)
    (hl : ∀ p ∈ l, strUpper p.base = p.base ∧ strUpper p.target = p.target) :
    ∀ m, mapWF m → mapWF (l.foldl dedupStep m) := by
  induction l with
  | nil => exact fun m hm => hm
  | cons p ps ih =>
    intro m hm
    rw [List.foldl_cons]
    have hps := fun q hq => hl q (List.mem_cons_of_mem _ hq)
    unfold dedupStep
    by_cases h : skipPair p = true
    · rw [if_pos h]
      exact ih hps m hm
    · rw [if_neg h]
      have hne := (skipPair_eq_false_iff p).mp (Bool.eq_false_iff.mpr h)
      have hup := hl p (List.mem_cons_self p ps)
      exact ih hps _ (insKey_WF m p hm
        ⟨hne.1, hne.2.1, hup.1, hup.2, hne.2.2⟩)

theorem processPairs_WF (items : List Json) :
    goodWatchlist (processPairs items) := by
  have hl : ∀ p ∈ (items.filter isPair).map normPair,
      strUpper p.base = p.base ∧ strUpper p.target = p.target := by
    intro p hp
    obtain ⟨x, _, hx⟩ := List.mem_map.mp hp
    exact hx ▸ normPair_upper x
  have hWF := foldl_dedupStep_WF _ hl [] ⟨by simp, by simp⟩
  unfold processPairs
  constructor
  · intro q hq
    obtain ⟨e, he, hfe⟩ := List.mem_map.mp hq
    exact hfe ▸ (hWF.1 e he).2
  · have : ((((items.filter isPair).map normPair).foldl dedupStep []).map
        Prod.snd).map WatchPair.key =
        (((items.filter isPair).map normPair).foldl dedupStep []).map
          Prod.fst := by
      rw [List.map_map]
      exact List.map_congr_left (fun e he => ((hWF.1 e he).1).symm)
    rw [this]
    exact hWF.2

theorem goodWatchlist_default : goodWatchlist defaultWatchlist := by decide

theorem loadWatchlist_WF (b : Blob) : goodWatchlist (loadWatchlist b) := by
  match b with
  | .absent | .unparsable | .failure => exact goodWatchlist_default
  | .parsed j =>
    match j with
    | .null | .bool _ | .num _ | .str _ | .obj _ => exact goodWatchlist_default
    | .arr items =>
      show goodWatchlist (if (processPairs items).isEmpty then
        defaultWatchlist else processPairs items)
      by_cases h : (processPairs items).isEmpty
      · rw [if_pos h]; exact goodWatchlist_default
      · rw [if_neg h]; exact processPairs_WF items

theorem anyPairKey_iff (l : List WatchPair) (k : String) :
    (l.any fun p => p.key == k) = true ↔ k ∈ l.map WatchPair.key := by
  simp only [List.any_eq_true, List.mem_map, beq_iff_eq]

theorem onAdd_WF (cur : List WatchPair) (base target : String)
    (l : List WatchPair) (hcur : goodWatchlist cur)
    (h : onAdd cur base target = .ok l) : goodWatchlist l := by
  simp only [onAdd] at h
  split at h
  · exact Except.noConfusion h
  · split at h
    · exact Except.noConfusion h
    · split at h
      · exact Except.noConfusion h
      · rename_i h1 h2 h3
        injection h with hl
        subst hl
        rw [Bool.not_eq_true, Bool.or_eq_false_iff] at h1
        have hbn : strUpper base ≠ "" := by
          simpa using h1.1
        have htn : strUpper target ≠ "" := by
          simpa using h1.2
        have hne : strUpper base ≠ strUpper target := by
          simpa using h2
        constructor
        · intro p hp
          rcases List.mem_cons.mp hp with h0 | h0
          · subst h0
            exact ⟨hbn, htn, strUpper_idem base, strUpper_idem target, hne⟩
          · exact hcur.1 p h0
        · rw [List.map_cons, List.nodup_cons]
          refine ⟨?_, hcur.2⟩
          intro hmem
          rw [Bool.not_eq_true] at h3
          have : (cur.any fun p =>
              p.base ++ "-" ++ p.target ==
                strUpper base ++ "-" ++ strUpper target) = true :=
            (anyPairKey_iff cur _).mpr hmem
          rw [h3] at this
          exact Bool.noConfusion this

theorem onRemove_WF (cur : List WatchPair) (p : WatchPair)
    (hcur : goodWatchlist cur) : goodWatchlist (onRemove cur p) := by
  constructor
  · exact fun q hq => hcur.1 q (List.mem_of_mem_filter hq)
  · exact List.Nodup.sublist
      (List.Sublist.map _ (List.filter_sublist cur)) hcur.2

/-- **C3.** Every watchlist produced by `loadWatchlist`, by a successful
`onAdd` on an invariant-satisfying watchlist, or by `onRemove` on an
invariant-satisfying watchlist, has only non-empty all-uppercase codes,
distinct codes within each pair, and pairwise-distinct `base-target`
keys. -/
theorem watchlist_invariant :
    (∀ b, goodWatchlist (loadWatchlist b)) ∧
    (∀ cur base target l, goodWatchlist cur →
      onAdd cur base target = .ok l → goodWatchlist l) ∧
    (∀ cur p, goodWatchlist cur → goodWatchlist (onRemove cur p)) :=
  ⟨loadWatchlist_WF, onAdd_WF, onRemove_WF⟩

/-- Closed instantiation of `watchlist_invariant` at a parsed blob, a
successful add, and a remove. -/
theorem watchlist_invariant_witness :
    goodWatchlist (loadWatchlist (.parsed (.arr [.obj
      [("base", .str "usd"), ("target", .str "mxn")]]))) ∧
    goodWatchlist [⟨"EUR", "USD"⟩, ⟨"USD", "MXN"⟩] ∧
    goodWatchlist (onRemove [⟨"USD", "MXN"⟩] ⟨"USD", "MXN"⟩) :=
  ⟨watchlist_invariant.1 _,
    watchlist_invariant.2.1 [⟨"USD", "MXN"⟩] "eur" "usd"
      [⟨"EUR", "USD"⟩, ⟨"USD", "MXN"⟩] (by decide) rfl,
    watchlist_invariant.2.2 [⟨"USD", "MXN"⟩] ⟨"USD", "MXN"⟩ (by decide)⟩

/-! ### The add handler -/

/-- **C4.** `onAdd` uppercases both inputs, then signals `EmptyField` if
either normalized code is empty, else `SamePair` if they coincide, else
`DuplicatePair` if the key is already present, and otherwise prepends the
normalized pair, leaving every pre-existing entry unchanged and in its
original relative order. -/
theorem onAdd_characterization (cur : List WatchPair) (base target : String) :
    onAdd cur base target =
      if strUpper base = "" ∨ strUpper target = "" then .error .emptyField
      else if strUpper base = strUpper target then .error .samePair
      else if (strUpper base ++ "-" ++ strUpper target) ∈
          cur.map WatchPair.key then .error .duplicatePair
      else .ok (⟨strUpper base, strUpper target⟩ :: cur) := by
  simp only [onAdd]
  by_cases h1 : strUpper base = "" ∨ strUpper target = ""
  · rw [if_pos (by rcases h1 with h | h <;> simp [h]), if_pos h1]
  · have hb1 : ¬ ((strUpper base == "" || strUpper target == "") = true) := by
      simp only [Bool.or_eq_true, beq_iff_eq]
      exact h1
    rw [if_neg hb1, if_neg h1]
    by_cases h2 : strUpper base = strUpper target
    · rw [if_pos (by simp [h2]), if_pos h2]
    · rw [if_neg (by simpa using h2), if_neg h2]
      by_cases h3 : (strUpper base ++ "-" ++ strUpper target) ∈
          cur.map WatchPair.key
      · rw [if_pos (show (cur.any fun p =>
            p.base ++ "-" ++ p.target ==
              strUpper base ++ "-" ++ strUpper target) = true from
          (anyPairKey_iff cur _).mpr h3), if_pos h3]
      · rw [if_neg (show ¬ ((cur.any fun p =>
            p.base ++ "-" ++ p.target ==
              strUpper base ++ "-" ++ strUpper target) = true) from
          fun hc => h3 ((anyPairKey_iff cur _).mp hc)), if_neg h3]

/-! ### The remove handler -/

theorem remove_pred_eq (x p : WatchPair) :
    (!(x.base == p.base && x.target == p.target)) = decide (x ≠ p) := by
  cases x with | mk a b =>
  cases p with | mk c d =>
  by_cases h1 : a = c <;> by_cases h2 : b = d <;> simp [h1, h2]

theorem onRemove_eq_filter_ne (cur : List WatchPair) (p : WatchPair) :
    onRemove cur p = cur.filter (fun x => x ≠ p) :=
  List.filter_congr (fun x _ => remove_pred_eq x p)

/-- **C8.** `onRemove` keeps exactly the entries whose pair of fields
differs from the given pair: it is the identity when no entry matches,
and on a key-unique watchlist containing the pair it shortens the list by
exactly one entry.  (It is a total function: it never fails.) -/
theorem onRemove_characterization :
    (∀ cur (p : WatchPair), onRemove cur p = cur.filter (fun x => x ≠ p)) ∧
    (∀ cur (p : WatchPair), p ∉ cur → onRemove cur p = cur) ∧
    (∀ cur (p : WatchPair), (cur.map WatchPair.key).Nodup → p ∈ cur →
      (onRemove cur p).length = cur.length - 1) := by
  refine ⟨onRemove_eq_filter_ne, ?_, ?_⟩
  · intro cur p hp
    rw [onRemove_eq_filter_ne]
    refine List.filter_eq_self.mpr (fun x hx => ?_)
    simp only [decide_eq_true_eq]
    intro he
    exact hp (he ▸ hx)
  · intro cur p hnd hp
    have hcur : cur.Nodup := List.Nodup.of_map _ hnd
    rw [onRemove_eq_filter_ne]
    have he : cur.filter (fun x => x ≠ p) = cur.erase p := by
      rw [List.Nodup.erase_eq_filter hcur]
      exact List.filter_congr (fun x _ => by
        by_cases hx : x = p <;> simp [hx, bne])
    rw [he]
    exact List.length_erase_of_mem hp

/-- Closed instantiation of `onRemove_characterization`: removing an
absent pair is a no-op, removing a present pair drops one entry. -/
theorem onRemove_characterization_witness :
    onRemove [⟨"USD", "MXN"⟩] ⟨"EUR", "USD"⟩ = [⟨"USD", "MXN"⟩] ∧
    (onRemove [⟨"EUR", "USD"⟩, ⟨"USD", "MXN"⟩] ⟨"EUR", "USD"⟩).length =
      [⟨"EUR", "USD"⟩, (⟨"USD", "MXN"⟩ : WatchPair)].length - 1 :=
  ⟨onRemove_characterization.2.1 [⟨"USD", "MXN"⟩] ⟨"EUR", "USD"⟩ (by decide),
    onRemove_characterization.2.2 [⟨"EUR", "USD"⟩, ⟨"USD", "MXN"⟩]
      ⟨"EUR", "USD"⟩ (by decide) (by decide)⟩

/-! ### The save/load round trip -/

theorem isPair_pairJson (p : WatchPair) : isPair (pairJson p) = true := rfl

theorem normPair_pairJson (p : WatchPair) (hb : strUpper p.base = p.base)
    (ht : strUpper p.target = p.target) : normPair (pairJson p) = p := by
  cases p with | mk b t =>
  show WatchPair.mk (strUpper b) (strUpper t) = ⟨b, t⟩
  rw [show strUpper b = b from hb, show strUpper t = t from ht]

theorem foldl_insKey_of_nodup (l : List WatchPair) :
    ∀ m, ((m.map Prod.fst ++ l.map WatchPair.key).Nodup) →
      l.foldl insKey m = m ++ l.map (fun p => (p.key, p)) := by
  induction l with
  | nil => intro m _; simp
  | cons p ps ih =>
    intro m hm
    rw [List.foldl_cons]
    have hkey : p.key ∉ m.map Prod.fst := by
      intro hmem
      rw [List.map_cons, List.nodup_append] at hm
      exact hm.2.2 hmem (by simp)
    have hstep : insKey m p = m ++ [(p.key, p)] := by
      unfold insKey mapSet
      rw [if_neg (fun hc => hkey ((anyKey_iff _ _).mp hc))]
    rw [hstep, ih (m ++ [(p.key, p)]) (by
      rw [List.map_append, List.map_singleton, List.append_assoc,
        List.singleton_append]
      rw [List.map_cons] at hm
      exact hm)]
    rw [List.append_assoc, List.map_cons, List.singleton_append]

theorem processPairs_of_good (x : List WatchPair) (hx : goodWatchlist x) :
    processPairs (x.map pairJson) = x := by
  unfold processPairs
  have h1 : (x.map pairJson).filter isPair = x.map pairJson :=
    List.filter_eq_self.mpr (fun a ha => by
      obtain ⟨p, _, hp⟩ := List.mem_map.mp ha
      exact hp ▸ isPair_pairJson p)
  have h2 : (x.map pairJson).map normPair = x := by
    rw [List.map_map]
    have := List.map_congr_left (fun p hp =>
      normPair_pairJson p ((hx.1 p hp).2.2.1) ((hx.1 p hp).2.2.2.1))
    rw [show (normPair ∘ pairJson) = fun p => normPair (pairJson p) from rfl]
    rw [this]
    simp
  rw [h1, h2]
  rw [foldl_dedupStep_eq]
  have h3 : x.filter (fun p => !skipPair p) = x :=
    List.filter_eq_self.mpr (fun p hp => by
      have hg := hx.1 p hp
      rw [(skipPair_eq_false_iff p).mpr ⟨hg.1, hg.2.1, hg.2.2.2.2⟩]
      rfl)
  rw [h3, foldl_insKey_of_nodup x [] (by simpa using hx.2)]
  rw [List.nil_append, List.map_map]
  rw [show (Prod.snd ∘ fun p => (WatchPair.key p, p)) = id from rfl]
  exact List.map_id x

/-- **C7 (amended).** For every non-empty watchlist already satisfying
the normalization invariant, loading right after saving returns it
unchanged.  (The non-emptiness hypothesis is needed: saving `[]` loads
back as the default watchlist, see
`save_load_roundtrip_counterexample`.) -/
theorem save_load_roundtrip (x : List WatchPair) (hx : goodWatchlist x)
    (hne : x ≠ []) : loadWatchlist (saveWatchlist x) = x := by
  show (if (processPairs (x.map pairJson)).isEmpty then defaultWatchlist
    else processPairs (x.map pairJson)) = x
  rw [processPairs_of_good x hx, if_neg (by simpa [List.isEmpty_iff] using hne)]

/-- **C7 counterexample.** The empty list satisfies the claim's
hypothesis (valid pairs, uppercase, distinct keys hold vacuously), yet
the save/load round trip does not return it: load falls back to the
default watchlist. -/
theorem save_load_roundtrip_counterexample :
    goodWatchlist [] ∧ loadWatchlist (saveWatchlist []) ≠ [] ∧
      loadWatchlist (saveWatchlist []) = defaultWatchlist := by
  refine ⟨by decide, ?_, rfl⟩
  decide

/-- Closed instantiation of `save_load_roundtrip`. -/
theorem save_load_roundtrip_witness :
    loadWatchlist (saveWatchlist [⟨"EUR", "USD"⟩, ⟨"USD", "MXN"⟩]) =
      [⟨"EUR", "USD"⟩, ⟨"USD", "MXN"⟩] :=
  save_load_roundtrip [⟨"EUR", "USD"⟩, ⟨"USD", "MXN"⟩] (by decide) (by decide)

/-! ### The two dedup semantics -/

theorem split_at_dash (xs1 : List Char) :
    ∀ xs2 ys1 ys2, '-' ∉ xs1 → '-' ∉ xs2 →
      xs1 ++ '-' :: ys1 = xs2 ++ '-' :: ys2 → xs1 = xs2 ∧ ys1 = ys2 := by
  induction xs1 with
  | nil =>
    intro xs2 ys1 ys2 _ h2 h
    cases xs2 with
    | nil =>
      rw [List.nil_append, List.nil_append] at h
      injection h with _ ht
      exact ⟨rfl, ht⟩
    | cons x xs2 =>
      rw [List.nil_append, List.cons_append] at h
      injection h with hh _
      exact absurd (hh ▸ List.mem_cons_self x xs2) h2
  | cons x xs1 ih =>
    intro xs2 ys1 ys2 h1 h2 h
    cases xs2 with
    | nil =>
      rw [List.nil_append, List.cons_append] at h
      injection h with hh _
      exact absurd (hh ▸ List.mem_cons_self x xs1) h1
    | cons y xs2 =>
      rw [List.cons_append, List.cons_append] at h
      injection h with hh ht
      obtain ⟨hx, hy⟩ := ih xs2 ys1 ys2
        (fun hc => h1 (List.mem_cons_of_mem _ hc))
        (fun hc => h2 (List.mem_cons_of_mem _ hc)) ht
      exact ⟨by rw [hh, hx], hy⟩

/-- When base codes are hyphen-free, the dedup key determines the pair. -/
theorem key_inj (p q : WatchPair) (hp : '-' ∉ p.base.data)
    (hq : '-' ∉ q.base.data) (h : p.key = q.key) : p = q := by
  unfold WatchPair.key at h
  have hd := congrArg String.data h
  rw [String.data_append, String.data_append, String.data_append,
    String.data_append] at hd
  have : p.base.data ++ '-' :: p.target.data =
      q.base.data ++ '-' :: q.target.data := by
    simpa using hd
  obtain ⟨hb, ht⟩ := split_at_dash p.base.data q.base.data
    p.target.data q.target.data hp hq this
  cases p with | mk a b =>
  cases q with | mk c d =>
  rw [show a = c from String.ext hb, show b = d from String.ext ht]

theorem foldl_dedup_last_eq_first (l : List WatchPair)
    (hl : ∀ p ∈ l, '-' ∉ p.base.data) :
    ∀ m, (∀ e ∈ m, e.1 = e.2.key ∧ '-' ∉ e.2.base.data) →
      l.foldl dedupStep m = l.foldl dedupFirstStep m := by
  induction l with
  | nil => intro m _; rfl
  | cons p ps ih =>
    intro m hm
    have hps := fun q hq => hl q (List.mem_cons_of_mem _ hq)
    by_cases hskip : skipPair p = true
    · have e1 : dedupStep m p = m := by unfold dedupStep; rw [if_pos hskip]
      have e2 : dedupFirstStep m p = m := by
        unfold dedupFirstStep; rw [if_pos hskip]
      rw [List.foldl_cons, List.foldl_cons, e1, e2]
      exact ih hps m hm
    · by_cases hmem : (m.any fun e => e.1 == p.key) = true
      · have hrepl : mapSet m p.key p = m := by
          unfold mapSet
          rw [if_pos hmem]
          refine (List.map_congr_left (fun e he => ?_)).trans (List.map_id m)
          by_cases hk : (e.1 == p.key) = true
          · rw [if_pos hk]
            have hkk : e.2.key = p.key := (hm e he).1 ▸ beq_iff_eq.mp hk
            have hep : e.2 = p := key_inj e.2 p (hm e he).2
              (hl p (List.mem_cons_self p ps)) hkk
            exact Prod.ext (beq_iff_eq.mp hk).symm hep.symm
          · rw [if_neg hk]
            rfl
        have e1 : dedupStep m p = m := by
          unfold dedupStep
          rw [if_neg hskip]
          exact hrepl
        have e2 : dedupFirstStep m p = m := by
          unfold dedupFirstStep
          rw [if_neg hskip, if_pos hmem]
        rw [List.foldl_cons, List.foldl_cons, e1, e2]
        exact ih hps m hm
      · have e1 : dedupStep m p = m ++ [(p.key, p)] := by
          unfold dedupStep
          rw [if_neg hskip]
          unfold mapSet
          rw [if_neg hmem]
        have e2 : dedupFirstStep m p = m ++ [(p.key, p)] := by
          unfold dedupFirstStep
          rw [if_neg hskip, if_neg hmem]
        rw [List.foldl_cons, List.foldl_cons, e1, e2]
        refine ih hps _ (fun e he => ?_)
        rcases List.mem_append.mp he with h0 | h0
        · exact hm e h0
        · rw [List.mem_singleton.mp h0]
          exact ⟨rfl, hl p (List.mem_cons_self p ps)⟩

/-- **C10 counterexample.** The dedup key does NOT determine the stored
pair: the normalized pairs `("A-B", "C")` and `("A", "B-C")` are distinct
but share the key `"A-B-C"`, and on an array holding both,
last-occurrence-wins dedup and first-occurrence-wins dedup return
different lists. -/
theorem dedup_semantics_counterexample :
    processPairs
        [.obj [("base", .str "A-B"), ("target", .str "C")],
         .obj [("base", .str "A"), ("target", .str "B-C")]] =
      [⟨"A", "B-C"⟩] ∧
    processPairsFirst
        [.obj [("base", .str "A-B"), ("target", .str "C")],
         .obj [("base", .str "A"), ("target", .str "B-C")]] =
      [⟨"A-B", "C"⟩] ∧
    (⟨"A", "B-C"⟩ : WatchPair) ≠ ⟨"A-B", "C"⟩ ∧
    WatchPair.key ⟨"A", "B-C"⟩ = WatchPair.key ⟨"A-B", "C"⟩ := by
  refine ⟨rfl, rfl, by decide, rfl⟩

/-- **C10 (amended).** On every parsed array whose surviving normalized
base codes contain no hyphen, the dedup key does determine the stored
pair, and last-occurrence-wins deduplication returns the same list as
first-occurrence-wins deduplication. -/
theorem dedup_semantics_agree (items : List Json)
    (h : ∀ p ∈ (items.filter isPair).map normPair, '-' ∉ p.base.data) :
    processPairs items = processPairsFirst items := by
  unfold processPairs processPairsFirst
  rw [foldl_dedup_last_eq_first _ h [] (by simp)]

/-- Closed instantiation of `dedup_semantics_agree` on an array with a
genuine duplicate key. -/
theorem dedup_semantics_agree_witness :
    processPairs
        [.obj [("base", .str "usd"), ("target", .str "mxn")],
         .obj [("base", .str "USD"), ("target", .str "MXN")]] =
      processPairsFirst
        [.obj [("base", .str "usd"), ("target", .str "mxn")],
         .obj [("base", .str "USD"), ("target", .str "MXN")]] :=
  dedup_semantics_agree _ (by decide)

/-! ### Lexicographic comparison of date strings -/

theorem charsLtb_iff (xs : List Char) :
    ∀ ys, charsLtb xs ys = true ↔ List.Lex (· < ·) xs ys := by
  induction xs with
  | nil =>
    intro ys
    cases ys with
    | nil =>
      exact ⟨fun h => Bool.noConfusion h,
        fun h => absurd h (List.Lex.not_nil_right _ _)⟩
    | cons y ys =>
      exact ⟨fun _ => List.Lex.nil, fun _ => rfl⟩
  | cons x xs ih =>
    intro ys
    cases ys with
    | nil =>
      exact ⟨fun h => Bool.noConfusion h,
        fun h => absurd h (List.Lex.not_nil_right _ _)⟩
    | cons y ys =>
      simp only [charsLtb, Bool.or_eq_true, Bool.and_eq_true,
        Bool.not_eq_true', decide_eq_true_eq, decide_eq_false_iff_not]
      constructor
      · rintro (h | ⟨h1, h2⟩)
        · exact List.Lex.rel h
        · rcases lt_trichotomy x y with hxy | hxy | hxy
          · exact List.Lex.rel hxy
          · subst hxy
            exact List.Lex.cons ((ih ys).mp h2)
          · exact absurd hxy h1
      · intro h
        cases h with
        | rel hr => exact Or.inl hr
        | cons htail => exact Or.inr ⟨lt_irrefl _, (ih ys).mpr htail⟩

theorem string_lt_iff_lex (s t : String) :
    s < t ↔ List.Lex (· < ·) s.data t.data :=
  String.lt_iff_toList_lt

theorem strLeb_iff (s t : String) : strLeb s t = true ↔ s ≤ t := by
  unfold strLeb
  rw [Bool.not_eq_true']
  constructor
  · intro h
    rw [← not_lt]
    intro hlt
    have hc : charsLtb t.data s.data = true :=
      (charsLtb_iff t.data s.data).mpr ((string_lt_iff_lex t s).mp hlt)
    rw [hc] at h
    exact Bool.noConfusion h
  · intro h
    by_contra hc
    have hb : charsLtb t.data s.data = true := by
      cases hcc : charsLtb t.data s.data
      · exact absurd hcc hc
      · rfl
    have hlex := (charsLtb_iff t.data s.data).mp hb
    exact absurd ((string_lt_iff_lex t s).mpr hlex) (not_lt.mpr h)

instance : IsTotal (String × JsNum) (fun a b => strLeb a.1 b.1 = true) :=
  ⟨fun a b => by
    rcases le_total a.1 b.1 with h | h
    · exact Or.inl ((strLeb_iff _ _).mpr h)
    · exact Or.inr ((strLeb_iff _ _).mpr h)⟩

instance : IsTrans (String × JsNum) (fun a b => strLeb a.1 b.1 = true) :=
  ⟨fun _ _ _ hab hbc => (strLeb_iff _ _).mpr
    (le_trans ((strLeb_iff _ _).mp hab) ((strLeb_iff _ _).mp hbc))⟩

/-! ### Which dates survive as points -/

theorem seriesPoints_eq_filterMap (raw : List (String × Json))
    (target : String) :
    seriesPoints raw target = raw.filterMap
      (fun e => match e.2.getField target with
        | some (.num n) => some (e.1, n)
        | _ => none) := by
  unfold seriesPoints
  rw [List.filterMap_map]
  rfl

theorem mem_seriesPoints (raw : List (String × Json)) (target : String)
    (d : String) (n : JsNum) :
    (d, n) ∈ seriesPoints raw target ↔
      ∃ v, (d, v) ∈ raw ∧ v.getField target = some (.num n) := by
  rw [seriesPoints_eq_filterMap, List.mem_filterMap]
  constructor
  · rintro ⟨e, he, hfe⟩
    rcases hg : e.2.getField target with _ | j
    · rw [hg] at hfe
      exact Option.noConfusion hfe
    · cases j <;> rw [hg] at hfe <;> try exact Option.noConfusion hfe
      rename_i m
      injection hfe with hpair
      injection hpair with h1 h2
      exact ⟨e.2, by rw [← h1]; exact he, by rw [hg, h2]⟩
  · rintro ⟨v, hv, hg⟩
    refine ⟨(d, v), hv, ?_⟩
    show (match (d, v).2.getField target with
      | some (.num n) => some ((d, v).1, n)
      | _ => none) = some (d, n)
    rw [show (d, v).2.getField target = some (.num n) from hg]

/-- **C5 counterexample.** `JSON.parse` can yield the non-finite number
`Infinity` (e.g. from the text `1e999`), and `chartData` keeps a date
whose stored value is `Infinity` because the filter only checks
`typeof === "number"`; the claim's "present and finite" criterion is
violated. -/
theorem series_filter_counterexample :
    chartData [("2024-01-01", .obj [("MXN", .num .inf)])] "MXN" 7 =
      [("2024-01-01", JsNum.inf)] ∧
    JsNum.isFinite .inf = false :=
  ⟨rfl, rfl⟩

/-- **C5 (amended).** `buildSeries` includes a date in its point list
exactly when the value stored for the target at that date is present and
of number type (finite or not — finiteness is not checked); every date
whose target value is absent or not a number contributes no point at any
stage, and the trimmed window only contains points of the filtered
list.  (Both functions are total: they never throw.) -/
theorem series_filter_characterization (raw : List (String × Json))
    (target : String) :
    (∀ d n, (d, n) ∈ seriesPoints raw target ↔
      ∃ v, (d, v) ∈ raw ∧ v.getField target = some (.num n)) ∧
    (∀ period pt, pt ∈ chartData raw target period →
      pt ∈ seriesPoints raw target) := by
  refine ⟨mem_seriesPoints raw target, fun period pt hpt => ?_⟩
  unfold chartData sliceLast at hpt
  have h1 := List.mem_of_mem_drop hpt
  exact (List.perm_insertionSort _ _).mem_iff.mp h1

/-- Closed instantiation of `series_filter_characterization`: a point of
the window evidences a stored number value for its date. -/
theorem series_filter_characterization_witness :
    (∃ v, ("2024-01-01", v) ∈
        [(("2024-01-01" : String), Json.obj [("MXN", .num (.fin 17))])] ∧
      v.getField "MXN" = some (.num (.fin 17))) ∧
    ("2024-01-01", JsNum.fin 17) ∈
      seriesPoints [("2024-01-01", .obj [("MXN", .num (.fin 17))])] "MXN" :=
  ⟨((series_filter_characterization
      [("2024-01-01", .obj [("MXN", .num (.fin 17))])] "MXN").1
        "2024-01-01" (.fin 17)).mp (by decide),
    (series_filter_characterization
      [("2024-01-01", .obj [("MXN", .num (.fin 17))])] "MXN").2 7
        ("2024-01-01", JsNum.fin 17) (by decide)⟩

/-! ### Window statistics -/

theorem jsMin_foldl_fin (qt : List ℚ) :
    ∀ a : ℚ, (qt.map JsNum.fin).foldl JsNum.min (.fin a) =
      .fin (qt.foldl min a) := by
  induction qt with
  | nil => intro a; rfl
  | cons q qs ih =>
    intro a
    rw [List.map_cons, List.foldl_cons, List.foldl_cons]
    exact ih (min a q)

theorem jsMax_foldl_fin (qt : List ℚ) :
    ∀ a : ℚ, (qt.map JsNum.fin).foldl JsNum.max (.fin a) =
      .fin (qt.foldl max a) := by
  induction qt with
  | nil => intro a; rfl
  | cons q qs ih =>
    intro a
    rw [List.map_cons, List.foldl_cons, List.foldl_cons]
    exact ih (max a q)

theorem jsAdd_foldl_fin (qt : List ℚ) :
    ∀ a : ℚ, (qt.map JsNum.fin).foldl JsNum.add (.fin a) =
      .fin (qt.foldl (· + ·) a) := by
  induction qt with
  | nil => intro a; rfl
  | cons q qs ih =>
    intro a
    rw [List.map_cons, List.foldl_cons, List.foldl_cons]
    exact ih (a + q)

theorem foldl_min_facts (qt : List ℚ) :
    ∀ a : ℚ, qt.foldl min a ≤ a ∧ (∀ x ∈ qt, qt.foldl min a ≤ x) ∧
      (qt.foldl min a = a ∨ qt.foldl min a ∈ qt) := by
  induction qt with
  | nil =>
    intro a
    exact ⟨le_refl a, fun x hx => absurd hx (List.not_mem_nil x), Or.inl rfl⟩
  | cons q qs ih =>
    intro a
    rw [List.foldl_cons]
    obtain ⟨h1, h2, h3⟩ := ih (min a q)
    refine ⟨le_trans h1 (min_le_left a q), fun x hx => ?_, ?_⟩
    · rcases List.mem_cons.mp hx with hx | hx
      · rw [hx]
        exact le_trans h1 (min_le_right a q)
      · exact h2 x hx
    · rcases h3 with h3 | h3
      · rcases min_choice a q with hc | hc
        · exact Or.inl (h3.trans hc)
        · exact Or.inr (by rw [h3, hc]; exact List.mem_cons_self q qs)
      · exact Or.inr (List.mem_cons_of_mem q h3)

theorem foldl_max_facts (qt : List ℚ) :
    ∀ a : ℚ, a ≤ qt.foldl max a ∧ (∀ x ∈ qt, x ≤ qt.foldl max a) ∧
      (qt.foldl max a = a ∨ qt.foldl max a ∈ qt) := by
  induction qt with
  | nil =>
    intro a
    exact ⟨le_refl a, fun x hx => absurd hx (List.not_mem_nil x), Or.inl rfl⟩
  | cons q qs ih =>
    intro a
    rw [List.foldl_cons]
    obtain ⟨h1, h2, h3⟩ := ih (max a q)
    refine ⟨le_trans (le_max_left a q) h1, fun x hx => ?_, ?_⟩
    · rcases List.mem_cons.mp hx with hx | hx
      · rw [hx]
        exact le_trans (le_max_right a q) h1
      · exact h2 x hx
    · rcases h3 with h3 | h3
      · rcases max_choice a q with hc | hc
        · exact Or.inl (h3.trans hc)
        · exact Or.inr (by rw [h3, hc]; exact List.mem_cons_self q qs)
      · exact Or.inr (List.mem_cons_of_mem q h3)

theorem foldl_add_eq_sum (qt : List ℚ) :
    ∀ a : ℚ, qt.foldl (· + ·) a = a + qt.sum := by
  induction qt with
  | nil => intro a; rw [List.foldl_nil, List.sum_nil, add_zero]
  | cons q qs ih =>
    intro a
    rw [List.foldl_cons, ih (a + q), List.sum_cons, add_assoc]

theorem stats_of_fin (pts : List (String × JsNum)) (q0 : ℚ) (qt : List ℚ)
    (h : pts.map Prod.snd = (q0 :: qt).map JsNum.fin) :
    stats pts = some ⟨.fin (qt.foldl min q0), .fin (qt.foldl max q0),
      .fin ((q0 :: qt).sum / (((q0 :: qt).length : ℚ))),
      (q0 :: qt).length⟩ := by
  have hlen : pts.length = qt.length + 1 := by
    have := congrArg List.length h
    rw [List.length_map, List.length_map, List.length_cons] at this
    exact this
  have hne : pts.isEmpty = false := by
    cases hie : pts.isEmpty
    · rfl
    · have hp : pts = [] := List.isEmpty_iff.mp hie
      rw [hp] at hlen
      exact absurd hlen (by simp)
  unfold stats
  rw [if_neg (show ¬ (pts.isEmpty = true) from fun hc =>
    Bool.noConfusion (hne ▸ hc))]
  refine congrArg some ?_
  have hmapfold : ∀ (f : JsNum → JsNum → JsNum) (a : JsNum),
      pts.foldl (fun m p => f m p.2) a =
        ((q0 :: qt).map JsNum.fin).foldl f a := by
    intro f a
    rw [← h, ← List.foldl_map]
  have hmin : pts.foldl (fun m p => JsNum.min m p.2) .inf =
      .fin (qt.foldl min q0) := by
    rw [hmapfold JsNum.min .inf, List.map_cons, List.foldl_cons]
    exact jsMin_foldl_fin qt q0
  have hmax : pts.foldl (fun m p => JsNum.max m p.2) .ninf =
      .fin (qt.foldl max q0) := by
    rw [hmapfold JsNum.max .ninf, List.map_cons, List.foldl_cons]
    exact jsMax_foldl_fin qt q0
  have hsum : pts.foldl (fun s p => JsNum.add s p.2) (.fin 0) =
      .fin ((q0 :: qt).sum) := by
    rw [hmapfold JsNum.add (.fin 0), List.map_cons, List.foldl_cons]
    rw [show JsNum.add (.fin 0) (.fin q0) = .fin (0 + q0) from rfl]
    rw [jsAdd_foldl_fin qt (0 + q0), foldl_add_eq_sum, List.sum_cons,
      zero_add]
  rw [hmin, hmax, hsum, hlen, List.length_cons]
  have hdiv : JsNum.divNat (.fin ((q0 :: qt).sum)) (qt.length + 1) =
      .fin ((q0 :: qt).sum / (((qt.length + 1 : ℕ)) : ℚ)) := by
    simp [JsNum.divNat]
  rw [hdiv]

/-- **C6.** After filtering, `chartData` sorts the surviving points
ascending by date string and keeps only the chronologically last
`period` points, so its length is the minimum of `period` and the
survivor count; `stats` yields nothing on an empty window, and on a
non-empty window of finite rates it yields the minimum, the maximum, the
arithmetic mean, and the count of the kept rates. -/
theorem chartData_window_and_stats (raw : List (String × Json))
    (target : String) (period : Nat) (hp : 0 < period) :
    List.Pairwise (fun a b : String × JsNum => a.1 ≤ b.1)
      (chartData raw target period) ∧
    (chartData raw target period).length =
      min period (seriesPoints raw target).length ∧
    (chartData raw target period = [] →
      stats (chartData raw target period) = none) ∧
    (∀ (q0 : ℚ) (qt : List ℚ),
      (chartData raw target period).map Prod.snd =
        (q0 :: qt).map JsNum.fin →
      stats (chartData raw target period) =
        some ⟨.fin (qt.foldl min q0), .fin (qt.foldl max q0),
          .fin ((q0 :: qt).sum / (((q0 :: qt).length : ℚ))),
          (q0 :: qt).length⟩ ∧
      qt.foldl min q0 ∈ q0 :: qt ∧
      (∀ x ∈ q0 :: qt, qt.foldl min q0 ≤ x) ∧
      qt.foldl max q0 ∈ q0 :: qt ∧
      (∀ x ∈ q0 :: qt, x ≤ qt.foldl max q0) ∧
      (q0 :: qt).length = (chartData raw target period).length) := by
  have _ := hp
  refine ⟨?_, ?_, ?_, ?_⟩
  · have hs := List.sorted_insertionSort
      (fun a b : String × JsNum => strLeb a.1 b.1 = true)
      (seriesPoints raw target)
    unfold chartData sliceLast
    exact (List.Pairwise.sublist (List.drop_sublist _ _) hs).imp
      (fun hab => (strLeb_iff _ _).mp hab)
  · unfold chartData sliceLast
    rw [List.length_drop, List.length_insertionSort]
    rcases Nat.le_total period ((seriesPoints raw target).length) with hle | hle
    · rw [min_eq_left hle]
      omega
    · rw [min_eq_right hle]
      omega
  · intro h
    rw [h]
    rfl
  · intro q0 qt h
    refine ⟨stats_of_fin _ q0 qt h, ?_, ?_, ?_, ?_, ?_⟩
    · rcases (foldl_min_facts qt q0).2.2 with hc | hc
      · rw [hc]
        exact List.mem_cons_self q0 qt
      · exact List.mem_cons_of_mem q0 hc
    · intro x hx
      rcases List.mem_cons.mp hx with hx | hx
      · rw [hx]
        exact (foldl_min_facts qt q0).1
      · exact (foldl_min_facts qt q0).2.1 x hx
    · rcases (foldl_max_facts qt q0).2.2 with hc | hc
      · rw [hc]
        exact List.mem_cons_self q0 qt
      · exact List.mem_cons_of_mem q0 hc
    · intro x hx
      rcases List.mem_cons.mp hx with hx | hx
      · rw [hx]
        exact (foldl_max_facts qt q0).1
      · exact (foldl_max_facts qt q0).2.1 x hx
    · have := congrArg List.length h
      rw [List.length_map, List.length_map] at this
      exact this.symm

/-- Closed instantiation of `chartData_window_and_stats`: three dates,
`period = 2`, so exactly the two chronologically last points survive,
with their min/max/mean/count. -/
theorem chartData_window_and_stats_witness :
    (chartData
        [("2024-01-02", .obj [("MXN", .num (.fin 18))]),
         ("2024-01-03", .obj [("MXN", .num (.fin 16))]),
         ("2024-01-01", .obj [("MXN", .num (.fin 17))])] "MXN" 2).length =
      min 2 (seriesPoints
        [("2024-01-02", .obj [("MXN", .num (.fin 18))]),
         ("2024-01-03", .obj [("MXN", .num (.fin 16))]),
         ("2024-01-01", .obj [("MXN", .num (.fin 17))])] "MXN").length ∧
    stats (chartData
        [("2024-01-02", .obj [("MXN", .num (.fin 18))]),
         ("2024-01-03", .obj [("MXN", .num (.fin 16))]),
         ("2024-01-01", .obj [("MXN", .num (.fin 17))])] "MXN" 2) =
      some ⟨.fin (([(16 : ℚ)]).foldl min 18), .fin (([(16 : ℚ)]).foldl max 18),
        .fin ((((18 : ℚ) :: [16]).sum) / ((((18 : ℚ) :: [16]).length : ℚ))),
        ((18 : ℚ) :: [16]).length⟩ :=
  ⟨(chartData_window_and_stats
      [("2024-01-02", .obj [("MXN", .num (.fin 18))]),
       ("2024-01-03", .obj [("MXN", .num (.fin 16))]),
       ("2024-01-01", .obj [("MXN", .num (.fin 17))])] "MXN" 2 (by decide)).2.1,
    ((chartData_window_and_stats
      [("2024-01-02", .obj [("MXN", .num (.fin 18))]),
       ("2024-01-03", .obj [("MXN", .num (.fin 16))]),
       ("2024-01-01", .obj [("MXN", .num (.fin 17))])] "MXN" 2
      (by decide)).2.2.2 18 [16] rfl).1⟩

/-! ### Decimal numerals: order and length -/

theorem tdc_acc (f : Nat) :
    ∀ (n : Nat) (acc : List Char),
      Nat.toDigitsCore 10 f n acc = Nat.toDigitsCore 10 f n [] ++ acc := by
  induction f with
  | zero => intro n acc; rfl
  | succ f ih =>
    intro n acc
    simp only [Nat.toDigitsCore]
    by_cases h : n / 10 = 0
    · rw [if_pos h, if_pos h]
      rfl
    · rw [if_neg h, if_neg h]
      rw [ih (n / 10) [(n % 10).digitChar],
        ih (n / 10) ((n % 10).digitChar :: acc)]
      rw [List.append_assoc]
      rfl

theorem tdc_fuel (n : Nat) :
    ∀ f1 f2 acc, n < f1 → n < f2 →
      Nat.toDigitsCore 10 f1 n acc = Nat.toDigitsCore 10 f2 n acc := by
  induction n using Nat.strong_induction_on with
  | _ n ih =>
    intro f1 f2 acc h1 h2
    match f1, f2 with
    | g1 + 1, g2 + 1 =>
      simp only [Nat.toDigitsCore]
      by_cases h : n / 10 = 0
      · rw [if_pos h, if_pos h]
      · rw [if_neg h, if_neg h]
        have hlt : n / 10 < n := Nat.div_lt_self (by omega) (by omega)
        exact ih (n / 10) hlt g1 g2 _ (by omega) (by omega)

theorem toDigits_base (n : Nat) (h : n < 10) :
    Nat.toDigits 10 n = [Nat.digitChar n] := by
  unfold Nat.toDigits
  simp only [Nat.toDigitsCore]
  rw [if_pos (Nat.div_eq_of_lt h), Nat.mod_eq_of_lt h]

theorem toDigits_decomp (n : Nat) (h : 10 ≤ n) :
    Nat.toDigits 10 n =
      Nat.toDigits 10 (n / 10) ++ [Nat.digitChar (n % 10)] := by
  have hne : ¬ (n / 10 = 0) := by omega
  show Nat.toDigitsCore 10 (n + 1) n [] = _
  simp only [Nat.toDigitsCore]
  rw [if_neg hne, tdc_acc]
  congr 1
  exact tdc_fuel (n / 10) n (n / 10 + 1) []
    (Nat.div_lt_self (by omega) (by omega)) (Nat.lt_succ_self _)

theorem toDigits_len_pos (n : Nat) : 1 ≤ (Nat.toDigits 10 n).length := by
  by_cases h : n < 10
  · rw [toDigits_base n h]
    exact le_refl 1
  · rw [toDigits_decomp n (by omega), List.length_append]
    simp

theorem toDigits_len_succ (n : Nat) (h : 10 ≤ n) :
    (Nat.toDigits 10 n).length = (Nat.toDigits 10 (n / 10)).length + 1 := by
  rw [toDigits_decomp n h, List.length_append]
  rfl

theorem digitChar_mono : ∀ a < 10, ∀ b < 10, a < b →
    Nat.digitChar a < Nat.digitChar b := by decide

theorem lex_append_strict :
    ∀ {as bs : List Char}, List.Lex (· < ·) as bs → as.length = bs.length →
      ∀ cs ds, List.Lex (· < ·) (as ++ cs) (bs ++ ds) := by
  intro as bs h
  induction h with
  | nil => intro hlen; exact absurd hlen (by simp)
  | @rel a l1 b l2 hr =>
    intro hlen cs ds
    exact List.Lex.rel hr
  | @cons a l1 l2 htail ih =>
    intro hlen cs ds
    exact List.Lex.cons (ih (by simpa using hlen) cs ds)

theorem toDigits_mono (n : Nat) :
    ∀ m, m < n → (Nat.toDigits 10 m).length = (Nat.toDigits 10 n).length →
      List.Lex (· < ·) (Nat.toDigits 10 m) (Nat.toDigits 10 n) := by
  induction n using Nat.strong_induction_on with
  | _ n ih =>
    intro m hmn hlen
    by_cases hn : n < 10
    · have hm : m < 10 := by omega
      rw [toDigits_base n hn, toDigits_base m hm]
      exact List.Lex.rel (digitChar_mono m hm n hn hmn)
    · by_cases hm : m < 10
      · exfalso
        rw [toDigits_base m hm, toDigits_len_succ n (by omega)] at hlen
        rw [List.length_singleton] at hlen
        have := toDigits_len_pos (n / 10)
        omega
      · rw [toDigits_decomp m (by omega), toDigits_decomp n (by omega)]
        have hlen2 : (Nat.toDigits 10 (m / 10)).length =
            (Nat.toDigits 10 (n / 10)).length := by
          rw [toDigits_len_succ m (by omega), toDigits_len_succ n (by omega)]
            at hlen
          omega
        rcases (show m / 10 < n / 10 ∨
            (m / 10 = n / 10 ∧ m % 10 < n % 10) by omega) with hc | ⟨hc1, hc2⟩
        · exact lex_append_strict
            (ih (n / 10) (Nat.div_lt_self (by omega) (by omega)) (m / 10) hc
              hlen2) hlen2 _ _
        · rw [hc1]
          exact List.Lex.append_left _ (List.Lex.rel
            (digitChar_mono (m % 10) (by omega) (n % 10) (by omega) hc2)) _

theorem toDigits_len2 (n : Nat) (h1 : 10 ≤ n) (h2 : n ≤ 99) :
    (Nat.toDigits 10 n).length = 2 := by
  rw [toDigits_len_succ n h1, toDigits_base (n / 10) (by omega)]
  rfl

theorem toDigits_len4 (n : Nat) (h1 : 1000 ≤ n) (h2 : n ≤ 9999) :
    (Nat.toDigits 10 n).length = 4 := by
  rw [toDigits_len_succ n (by omega), toDigits_len_succ (n / 10) (by omega)]
  rw [toDigits_len2 (n / 10 / 10) (by omega) (by omega)]

theorem repr_data (n : Nat) : (toString n).data = Nat.toDigits 10 n := rfl

theorem pad2_data_lt (a b : Nat) (hab : a < b) (hb : b ≤ 99) :
    List.Lex (· < ·) (pad2 a).data (pad2 b).data := by
  unfold pad2
  by_cases hb10 : b < 10
  · rw [if_pos (by omega), if_pos hb10]
    show List.Lex (· < ·) ('0' :: (toString a).data) ('0' :: (toString b).data)
    refine List.Lex.cons ?_
    rw [repr_data, repr_data, toDigits_base a (by omega), toDigits_base b hb10]
    exact List.Lex.rel (digitChar_mono a (by omega) b hb10 hab)
  · by_cases ha10 : a < 10
    · rw [if_pos ha10, if_neg (by omega)]
      show List.Lex (· < ·) ('0' :: (toString a).data) (toString b).data
      rw [repr_data, repr_data, toDigits_decomp b (by omega),
        toDigits_base (b / 10) (by omega)]
      have h0 : '0' = Nat.digitChar 0 := rfl
      rw [List.singleton_append, h0]
      exact List.Lex.rel (digitChar_mono 0 (by omega) (b / 10) (by omega)
        (by omega))
    · rw [if_neg (by omega), if_neg (by omega)]
      rw [repr_data, repr_data]
      exact toDigits_mono b a hab (by
        rw [toDigits_len2 a (by omega) (by omega),
          toDigits_len2 b (by omega) hb])

theorem pad2_data_len (n : Nat) (h : n ≤ 99) : (pad2 n).data.length = 2 := by
  unfold pad2
  by_cases h10 : n < 10
  · rw [if_pos h10]
    show ('0' :: (toString n).data).length = 2
    rw [repr_data, toDigits_base n h10]
    rfl
  · rw [if_neg h10]
    rw [repr_data]
    exact toDigits_len2 n (by omega) h

theorem int_repr_data (y : Int) (h : 0 ≤ y) :
    (toString y).data = Nat.toDigits 10 y.toNat := by
  obtain ⟨m, rfl⟩ := Int.eq_ofNat_of_zero_le h
  rfl

theorem iso_data (t : CivilDate) :
    (isoDateUTC t).data = (toString t.y).data ++
      '-' :: ((pad2 t.m).data ++ '-' :: (pad2 t.d).data) := by
  unfold isoDateUTC
  rw [String.data_append, String.data_append, String.data_append,
    String.data_append]
  rw [show ("-" : String).data = ['-'] from rfl]
  simp [List.append_assoc]

/-! ### Calendar arithmetic -/

theorem daysInMonth_bounds (y : Int) (m : Nat) :
    28 ≤ daysInMonth y m ∧ daysInMonth y m ≤ 31 := by
  unfold daysInMonth
  split_ifs <;> omega

theorem dateLt_le_year (t1 t2 : CivilDate) (h : dateLt t1 t2) :
    t1.y ≤ t2.y := by
  unfold dateLt at h
  rcases h with h | ⟨e, _⟩ <;> omega

theorem iso_lt_of_dateLt (t1 t2 : CivilDate) (hv1 : validDate t1)
    (hv2 : validDate t2) (hy1 : 1000 ≤ t1.y) (hy2 : t2.y ≤ 9999)
    (hlt : dateLt t1 t2) :
    isoDateUTC t1 < isoDateUTC t2 := by
  have hyy : t1.y ≤ t2.y := dateLt_le_year t1 t2 hlt
  obtain ⟨hm1a, hm1b, hd1a, hd1b⟩ := hv1
  obtain ⟨hm2a, hm2b, hd2a, hd2b⟩ := hv2
  have hdm1 := daysInMonth_bounds t1.y t1.m
  have hdm2 := daysInMonth_bounds t2.y t2.m
  rw [string_lt_iff_lex, iso_data, iso_data]
  rcases hlt with hy | ⟨hyeq, hrest⟩
  · have hl1 : (toString t1.y).data.length = 4 := by
      rw [int_repr_data _ (by omega)]
      exact toDigits_len4 _ (by omega) (by omega)
    have hl2 : (toString t2.y).data.length = 4 := by
      rw [int_repr_data _ (by omega)]
      exact toDigits_len4 _ (by omega) (by omega)
    refine lex_append_strict ?_ (by rw [hl1, hl2]) _ _
    rw [int_repr_data _ (by omega), int_repr_data _ (by omega)]
    refine toDigits_mono t2.y.toNat t1.y.toNat (by omega) ?_
    rw [toDigits_len4 _ (by omega) (by omega),
      toDigits_len4 _ (by omega) (by omega)]
  · rw [hyeq]
    refine List.Lex.append_left _ ?_ _
    rcases hrest with hm | ⟨hmeq, hd⟩
    · refine List.Lex.cons ?_
      exact lex_append_strict (pad2_data_lt t1.m t2.m hm (by omega))
        (by rw [pad2_data_len _ (by omega), pad2_data_len _ (by omega)]) _ _
    · rw [hmeq]
      refine List.Lex.cons (List.Lex.append_left _ ?_ _)
      exact List.Lex.cons (pad2_data_lt t1.d t2.d hd (by omega))

theorem prevDay_valid (t : CivilDate) (hv : validDate t) :
    validDate (prevDay t) := by
  obtain ⟨hma, hmb, hda, hdb⟩ := hv
  unfold prevDay
  by_cases hd : 1 < t.d
  · rw [if_pos hd]
    show 1 ≤ t.m ∧ t.m ≤ 12 ∧ 1 ≤ t.d - 1 ∧ t.d - 1 ≤ daysInMonth t.y t.m
    exact ⟨hma, hmb, by omega, by omega⟩
  · rw [if_neg hd]
    by_cases hm : 1 < t.m
    · rw [if_pos hm]
      show 1 ≤ t.m - 1 ∧ t.m - 1 ≤ 12 ∧ 1 ≤ daysInMonth t.y (t.m - 1) ∧
        daysInMonth t.y (t.m - 1) ≤ daysInMonth t.y (t.m - 1)
      have := daysInMonth_bounds t.y (t.m - 1)
      exact ⟨by omega, by omega, by omega, le_refl _⟩
    · rw [if_neg hm]
      show 1 ≤ 12 ∧ 12 ≤ 12 ∧ 1 ≤ 31 ∧ 31 ≤ daysInMonth (t.y - 1) 12
      refine ⟨by omega, by omega, by omega, ?_⟩
      unfold daysInMonth
      split_ifs <;> omega

theorem prevDay_dateLt (t : CivilDate) (hv : validDate t) :
    dateLt (prevDay t) t := by
  obtain ⟨hma, hmb, hda, hdb⟩ := hv
  unfold prevDay
  by_cases hd : 1 < t.d
  · rw [if_pos hd]
    show t.y < t.y ∨ (t.y = t.y ∧ (t.m < t.m ∨ (t.m = t.m ∧ t.d - 1 < t.d)))
    exact Or.inr ⟨rfl, Or.inr ⟨rfl, by omega⟩⟩
  · rw [if_neg hd]
    by_cases hm : 1 < t.m
    · rw [if_pos hm]
      show t.y < t.y ∨ (t.y = t.y ∧ (t.m - 1 < t.m ∨ _))
      exact Or.inr ⟨rfl, Or.inl (by omega)⟩
    · rw [if_neg hm]
      show t.y - 1 < t.y ∨ _
      exact Or.inl (by omega)

theorem dateLt_trans (a b c : CivilDate) (h1 : dateLt a b) (h2 : dateLt b c) :
    dateLt a c := by
  unfold dateLt at h1 h2 ⊢
  rcases h1 with h1 | ⟨e1, h1⟩ <;> rcases h2 with h2 | ⟨e2, h2⟩
  · exact Or.inl (by omega)
  · exact Or.inl (by omega)
  · exact Or.inl (by omega)
  · refine Or.inr ⟨by omega, ?_⟩
    rcases h1 with h1 | ⟨f1, h1⟩ <;> rcases h2 with h2 | ⟨f2, h2⟩
    · exact Or.inl (by omega)
    · exact Or.inl (by omega)
    · exact Or.inl (by omega)
    · exact Or.inr ⟨by omega, by omega⟩

theorem daysAgo_dateLt (t : CivilDate) (hv : validDate t) (k : Nat)
    (hk : 0 < k) (hvk : ∀ j ≤ k, validDate (prevDay^[j] t)) :
    dateLt (prevDay^[k] t) t := by
  induction k with
  | zero => omega
  | succ k ih =>
    by_cases hk0 : k = 0
    · subst hk0
      rw [Function.iterate_one]
      exact prevDay_dateLt t hv
    · rw [Function.iterate_succ_apply']
      refine dateLt_trans _ _ _ ?_ (ih (by omega)
        (fun j hj => hvk j (by omega)))
      exact prevDay_dateLt _ (hvk k (by omega))

theorem civilDate_ext (t1 t2 : CivilDate) (hy : t1.y = t2.y)
    (hm : t1.m = t2.m) (hd : t1.d = t2.d) : t1 = t2 := by
  cases t1
  cases t2
  simp_all

theorem monthSum_pos (y : Int) (k : Nat) (hk : 1 ≤ k) : 28 ≤ monthSum y k := by
  match k, hk with
  | j + 1, _ =>
    show 28 ≤ monthSum y j + daysInMonth y (j + 1)
    have := daysInMonth_bounds y (j + 1)
    omega

theorem dayOfYear_pos (t : CivilDate) (hv : validDate t) :
    1 ≤ dayOfYear t := by
  unfold dayOfYear
  have := hv.2.2.1
  omega

theorem doy_eq_one (t : CivilDate) (hv : validDate t)
    (h : dayOfYear t = 1) : t.m = 1 ∧ t.d = 1 := by
  obtain ⟨hma, _, hda, _⟩ := hv
  unfold dayOfYear at h
  have hms : monthSum t.y (t.m - 1) = 0 := by omega
  have hm1 : t.m - 1 = 0 := by
    by_contra hc
    have := monthSum_pos t.y (t.m - 1) (by omega)
    omega
  exact ⟨by omega, by omega⟩

theorem prevDay_sameYear (t : CivilDate) (hv : validDate t)
    (h2 : 2 ≤ dayOfYear t) :
    (prevDay t).y = t.y ∧ dayOfYear (prevDay t) = dayOfYear t - 1 := by
  obtain ⟨hma, hmb, hda, hdb⟩ := hv
  unfold prevDay
  by_cases hd : 1 < t.d
  · rw [if_pos hd]
    refine ⟨rfl, ?_⟩
    show monthSum t.y (t.m - 1) + (t.d - 1) = monthSum t.y (t.m - 1) + t.d - 1
    omega
  · rw [if_neg hd]
    by_cases hm : 1 < t.m
    · rw [if_pos hm]
      refine ⟨rfl, ?_⟩
      obtain ⟨k, hk⟩ : ∃ k, t.m = k + 2 := ⟨t.m - 2, by omega⟩
      show monthSum t.y (t.m - 1 - 1) + daysInMonth t.y (t.m - 1) =
        monthSum t.y (t.m - 1) + t.d - 1
      have hd1 : t.d = 1 := by omega
      rw [hk, hd1]
      show monthSum t.y k + daysInMonth t.y (k + 1) =
        monthSum t.y (k + 1) + 1 - 1
      rw [show monthSum t.y (k + 1) =
        monthSum t.y k + daysInMonth t.y (k + 1) from rfl]
      omega
    · exfalso
      have hm1 : t.m = 1 := by omega
      have hd1 : t.d = 1 := by omega
      unfold dayOfYear at h2
      rw [hm1, hd1] at h2
      simp [monthSum] at h2

theorem doy_dec31 (y : Int) :
    dayOfYear ⟨y, 12, 31⟩ = if isLeap y then 366 else 365 := by
  show monthSum y 11 + 31 = _
  rcases hl : isLeap y <;> simp [monthSum, daysInMonth, hl]

theorem iterate_within_year (t : CivilDate) :
    ∀ j, validDate t → j < dayOfYear t →
      validDate (prevDay^[j] t) ∧ (prevDay^[j] t).y = t.y ∧
        dayOfYear (prevDay^[j] t) = dayOfYear t - j := by
  intro j
  induction j with
  | zero =>
    exact fun hv _ => ⟨hv, rfl, show dayOfYear t = dayOfYear t - 0 by omega⟩
  | succ j ih =>
    intro hv hj
    obtain ⟨h1, h2, h3⟩ := ih hv (by omega)
    rw [Function.iterate_succ_apply']
    have hdoy2 : 2 ≤ dayOfYear (prevDay^[j] t) := by omega
    have hys := prevDay_sameYear _ h1 hdoy2
    exact ⟨prevDay_valid _ h1, by rw [hys.1, h2],
      by rw [hys.2, h3]; omega⟩

theorem iterate_crossing (t : CivilDate) (hv : validDate t) :
    prevDay^[dayOfYear t] t = ⟨t.y - 1, 12, 31⟩ := by
  have hpos := dayOfYear_pos t hv
  obtain ⟨j, hj⟩ : ∃ j, dayOfYear t = j + 1 := ⟨dayOfYear t - 1, by omega⟩
  obtain ⟨hval, hyr, hdoy⟩ := iterate_within_year t j hv (by omega)
  have hdoy1 : dayOfYear (prevDay^[j] t) = 1 := by omega
  have hmd := doy_eq_one _ hval hdoy1
  have hu : prevDay^[j] t = ⟨t.y, 1, 1⟩ :=
    civilDate_ext _ _ hyr hmd.1 hmd.2
  rw [hj, Function.iterate_succ_apply', hu]
  rfl

theorem year_floor (t : CivilDate) (hv : validDate t) (k : Nat)
    (hk : k ≤ 364) :
    validDate (prevDay^[k] t) ∧ t.y - 1 ≤ (prevDay^[k] t).y ∧
      (prevDay^[k] t).y ≤ t.y := by
  by_cases hlt : k < dayOfYear t
  · obtain ⟨h1, h2, _⟩ := iterate_within_year t k hv hlt
    exact ⟨h1, by omega, by omega⟩
  · have hpos := dayOfYear_pos t hv
    have hcross := iterate_crossing t hv
    have hsplit : prevDay^[k] t =
        prevDay^[k - dayOfYear t] (⟨t.y - 1, 12, 31⟩ : CivilDate) := by
      rw [← hcross, ← Function.iterate_add_apply]
      congr 1
      omega
    have hvd : validDate ⟨t.y - 1, 12, 31⟩ := by
      show 1 ≤ 12 ∧ 12 ≤ 12 ∧ 1 ≤ 31 ∧ 31 ≤ daysInMonth (t.y - 1) 12
      refine ⟨by omega, by omega, by omega, ?_⟩
      unfold daysInMonth
      split_ifs <;> omega
    have hlt2 : k - dayOfYear t <
        dayOfYear (⟨t.y - 1, 12, 31⟩ : CivilDate) := by
      rw [doy_dec31]
      split_ifs <;> omega
    obtain ⟨h1, h2, _⟩ :=
      iterate_within_year (⟨t.y - 1, 12, 31⟩ : CivilDate)
        (k - dayOfYear t) hvd hlt2
    rw [hsplit]
    refine ⟨h1, ?_, ?_⟩
    · rw [h2]
    · rw [h2]
      show t.y - 1 ≤ t.y
      omega

theorem iso_length (t : CivilDate) (hv : validDate t) (h1 : 1000 ≤ t.y)
    (h2 : t.y ≤ 9999) : (isoDateUTC t).length = 10 := by
  obtain ⟨hma, hmb, hda, hdb⟩ := hv
  have hdm := daysInMonth_bounds t.y t.m
  show (isoDateUTC t).data.length = 10
  rw [iso_data, List.length_append, List.length_cons, List.length_append,
    List.length_cons]
  rw [int_repr_data _ (by omega), toDigits_len4 _ (by omega) (by omega),
    pad2_data_len _ (by omega), pad2_data_len _ (by omega)]

/-- **C9.** For every current UTC date (with a 4-digit year, which every
date the program can run on has) and every period in `{7, 30, 90}`, the
window memo returns `endDate` equal to the current UTC calendar date and
`startDate` equal to `endDate` minus `period + 2` calendar days, both
formatted as `YYYY-MM-DD` (10 characters) from UTC date fields, with
`startDate` lexicographically less than `endDate`. -/
theorem windowFor_correct (today : CivilDate) (period : Nat)
    (hper : period = 7 ∨ period = 30 ∨ period = 90)
    (hv : validDate today) (hy1 : 1001 ≤ today.y) (hy2 : today.y ≤ 9999) :
    windowFor today period =
      (isoDateUTC (prevDay^[period + 2] today), isoDateUTC today) ∧
    (windowFor today period).1 < (windowFor today period).2 ∧
    (windowFor today period).1.length = 10 ∧
    (windowFor today period).2.length = 10 := by
  have hk : period + 2 ≤ 364 := by rcases hper with h | h | h <;> omega
  obtain ⟨hval, hylo, hyhi⟩ := year_floor today hv (period + 2) hk
  have hvks : ∀ j, j ≤ period + 2 → validDate (prevDay^[j] today) :=
    fun j hj => (year_floor today hv j (by omega)).1
  have hlt := daysAgo_dateLt today hv (period + 2) (by omega) hvks
  refine ⟨rfl, ?_, ?_, ?_⟩
  · show isoDateUTC (prevDay^[period + 2] today) < isoDateUTC today
    exact iso_lt_of_dateLt _ _ hval hv (by omega) (by omega) hlt
  · show (isoDateUTC (prevDay^[period + 2] today)).length = 10
    exact iso_length _ hval (by omega) (by omega)
  · exact iso_length _ hv (by omega) (by omega)

/-- Closed instantiation of `windowFor_correct` at October 11, 2026 with
the 30-day period. -/
theorem windowFor_correct_witness :
    windowFor ⟨2026, 10, 11⟩ 30 =
      (isoDateUTC (prevDay^[32] ⟨2026, 10, 11⟩), isoDateUTC ⟨2026, 10, 11⟩) ∧
    (windowFor ⟨2026, 10, 11⟩ 30).1 < (windowFor ⟨2026, 10, 11⟩ 30).2 ∧
    (windowFor ⟨2026, 10, 11⟩ 30).1.length = 10 ∧
    (windowFor ⟨2026, 10, 11⟩ 30).2.length = 10 :=
  windowFor_correct ⟨2026, 10, 11⟩ 30 (by decide) (by decide) (by decide)
    (by decide)

end FX
